import Mathlib

/-!
Verification of the mcporter Runtime core against its specification.

The definitions below are a shallow embedding of the TypeScript sources:
`runtime.ts` (connection pool, OAuth promotion, the Unauthorized
classifier, header materialization, process-tree teardown),
`config.ts` (definition loading and import merging) and
`sdk-patches.ts` (stdio transport close escalation).  JavaScript `Map`
objects are modelled as association lists with `Map.set` insertion-order
semantics, promises by identifiers handed out by a counter, and regular
expressions by explicit scanning functions over character lists.
-/

namespace Mcporter

/-- Lookup in an association list, modelling `Map.get` / `Object` key access. -/
def alookup {β : Type} (m : List (String × β)) (k : String) : Option β :=
  match m with
  | [] => none
  | (k', v) :: rest => if k' = k then some v else alookup rest k

/-- JS `\w` word character: ASCII letter, digit or underscore. -/
def isWordChar (c : Char) : Bool :=
  c.isAlphanum || c = '_'

/-- Lower-cased character list of a string; models the `/i` regex flag by
ASCII case folding. -/
def lcList (s : String) : List Char :=
  s.data.map Char.toLower

/-- Scan a character list, testing the predicate at every suffix position,
modelling `RegExp.prototype.test` for patterns without anchors. -/
def scanContains (p : List Char → Bool) : List Char → Bool
  | [] => p []
  | c :: rest => p (c :: rest) || scanContains p rest

/-- Substring occurrence of a literal pattern, used for the spec side of the
Unauthorized classifier. -/
def containsPat (pat : List Char) (l : List Char) : Bool :=
  scanContains (fun suf => pat.isPrefixOf suf) l

/-- Position-wise match of the regex branch `invalid[_-]?token`: the literal
`invalid`, then an optional single `_` or `-`, then `token`. -/
def sepTokenAt : List Char → Bool
  | c :: rest =>
      if c = '_' || c = '-' then "token".data.isPrefixOf rest
      else "token".data.isPrefixOf (c :: rest)
  | [] => false

/-- Position-wise match of `invalid[_-]?token` at the head of the list. -/
def invTokAt (l : List Char) : Bool :=
  "invalid".data.isPrefixOf l && sepTokenAt (l.drop 7)

/-- Position-wise match of the alternation
`unauthorized|invalid[_-]?token|forbidden` at the head of the list. -/
def authWordsAt (l : List Char) : Bool :=
  "unauthorized".data.isPrefixOf l || invTokAt l || "forbidden".data.isPrefixOf l

/-- The test `/unauthorized|invalid[_-]?token|forbidden/i.test(message)` from
`isUnauthorizedError` in runtime.ts. -/
def testAuthWords (msg : String) : Bool :=
  scanContains authWordsAt (lcList msg)

/-- No word character before the match position (regex `\b` on the left of a
digit), given the previous character if any. -/
def prevIsWord : Option Char → Bool
  | none => false
  | some c => isWordChar c

/-- Regex `\b` to the right of a digit: end of input or a non-word character. -/
def boundaryAfter : List Char → Bool
  | [] => true
  | c :: _ => !isWordChar c

/-- Position-wise match of `(401|403)\b` at the head of the list. -/
def numAt (l : List Char) : Bool :=
  ("401".data.isPrefixOf l || "403".data.isPrefixOf l) && boundaryAfter (l.drop 3)

/-- Scan for `\b(401|403)\b` tracking the previous character for the left
word boundary. -/
def scan401 (prev : Option Char) : List Char → Bool
  | [] => false
  | c :: rest => (!prevIsWord prev && numAt (c :: rest)) || scan401 (some c) rest

/-- The test `/\b(401|403)\b/i.test(message)` from `isUnauthorizedError` in
runtime.ts (the `i` flag is irrelevant for digits). -/
def test401403 (msg : String) : Bool :=
  scan401 none msg.data

/-- The JavaScript values that can reach `isUnauthorizedError`: an instance
of the SDK's typed `UnauthorizedError` class, some other `Error`, a plain
string, a truthy non-Error non-string value together with its
`JSON.stringify` rendering, or a falsy value. -/
inductive ErrVal where
  | typedUnauthorized (message : String)
  | errObj (message : String)
  | strVal (s : String)
  | jsonValue (json : String)
  | falsyValue
deriving DecidableEq, Repr

/-- The stringification in `isUnauthorizedError`:
`error instanceof Error ? error.message : typeof error === 'string' ? error
: error ? JSON.stringify(error) : ''`. -/
def stringifyError : ErrVal → String
  | .typedUnauthorized m => m
  | .errObj m => m
  | .strVal s => s
  | .jsonValue j => j
  | .falsyValue => ""

/-- `isUnauthorizedError` from runtime.ts: typed `UnauthorizedError`
instances are Unauthorized; otherwise the stringified message is tested
against `/\b(401|403)\b/i` and `/unauthorized|invalid[_-]?token|forbidden/i`. -/
def isUnauthorizedError (e : ErrVal) : Bool :=
  match e with
  | .typedUnauthorized _ => true
  | _ =>
    let message := stringifyError e
    if message = "" then false
    else test401403 message || testAuthWords message

/-- The classifier as the specification words it: typed `UnauthorizedError`,
or the stringified message matches `\b(401|403)\b`, or it contains
`unauthorized`, `invalid_token`, `invalid-token`, `invalidtoken` or
`forbidden` case-insensitively. -/
def isUnauthorizedSpec (e : ErrVal) : Bool :=
  match e with
  | .typedUnauthorized _ => true
  | _ =>
    let message := stringifyError e
    test401403 message ||
      (containsPat "unauthorized".data (lcList message) ||
        containsPat "invalid_token".data (lcList message) ||
        containsPat "invalid-token".data (lcList message) ||
        containsPat "invalidtoken".data (lcList message) ||
        containsPat "forbidden".data (lcList message))

/-- The only recognized auth mode (the TS type is the literal `oauth`). -/
inductive AuthKind where
  | oauth
deriving DecidableEq, Repr

/-- Origin kind of a definition: the primary (local) config or an imported
editor config. -/
inductive SourceKind where
  | localCfg
  | imported
deriving DecidableEq, Repr

/-- A definition's origin: kind plus the contributing file path (the ad-hoc
CLI boundary uses the sentinel path `<adhoc>` with local kind). -/
structure ServerSource where
  kind : SourceKind
  path : String
deriving DecidableEq, Repr

/-- The `command` union of a `ServerDefinition`: HTTP endpoint with optional
headers, or a stdio child-process command. -/
inductive CommandSpec where
  | http (url : String) (headers : Option (List (String × String)))
  | stdio (command : String) (args : List String) (cwd : Option String)
deriving DecidableEq, Repr

/-- Kind discriminator mirroring `command.kind === 'http'`. -/
def CommandSpec.kindIsHttp : CommandSpec → Bool
  | .http _ _ => true
  | .stdio _ _ _ => false

/-- Normalized server definition from config.ts. -/
structure ServerDefinition where
  name : String
  description : Option String
  command : CommandSpec
  env : Option (List (String × String))
  auth : Option AuthKind
  tokenCacheDir : Option String
  clientName : Option String
  oauthRedirectUrl : Option String
  source : Option ServerSource
deriving DecidableEq, Repr

/-- The default token cache directory
`path.join(os.homedir(), '.mcporter', name)`, modelled as slash-joined
segments. -/
def homeTokenCacheDir (homedir name : String) : String :=
  homedir ++ "/.mcporter/" ++ name

/-- The ad-hoc source sentinel checked by the promotion guard. -/
def adhocSource : ServerSource :=
  ⟨SourceKind.localCfg, "<adhoc>"⟩

/-- The function `maybeEnableOAuth` from runtime.ts: promote an ad-hoc HTTP
definition without OAuth to `auth = 'oauth'`, keeping an existing token
cache directory or defaulting it, and leaving every other field intact. -/
def maybeEnableOAuth (homedir : String) (d : ServerDefinition) : Option ServerDefinition :=
  if d.auth = some AuthKind.oauth then none
  else if !d.command.kindIsHttp then none
  else if ¬(d.source = some adhocSource) then none
  else
    some { d with
      auth := some AuthKind.oauth
      tokenCacheDir := some (d.tokenCacheDir.getD (homeTokenCacheDir homedir d.name)) }

/-- Options accepted by `McpRuntime.connect`. -/
structure ConnectOptions where
  maxOAuthAttempts : Option Nat
  skipCache : Option Bool
deriving DecidableEq, Repr

/-- Cache eligibility from runtime.ts:
`options.skipCache !== true && options.maxOAuthAttempts === undefined`. -/
def ConnectOptions.useCache (o : ConnectOptions) : Bool :=
  !(o.skipCache = some true : Bool) && (o.maxOAuthAttempts = none : Bool)

/-- JS `String.prototype.trim`: drop leading and trailing whitespace,
modelled structurally over the character list. -/
def trimName (s : String) : String :=
  String.mk (((s.data.dropWhile Char.isWhitespace).reverse.dropWhile Char.isWhitespace).reverse)

/-- The mutable state of `McpRuntime`: the definition registry, the pool of
in-flight client promises (promises are identifiers), and the id counter
standing in for promise allocation. -/
structure PoolState where
  definitions : List (String × ServerDefinition)
  clients : List (String × Nat)
  nextId : Nat
deriving DecidableEq, Repr

/-- Outcome of the synchronous part of `connect`: unknown server, a reused
pooled promise, or a freshly created one (cached or not). -/
inductive ConnectResult where
  | unknownServer (name : String)
  | reused (id : Nat)
  | created (id : Nat) (cached : Bool)
deriving DecidableEq, Repr

/-- The synchronous body of `McpRuntime.connect`: trim the name, return the
pooled promise when cache-eligible and present, otherwise look up the
definition and create a fresh promise, storing it only when cache-eligible. -/
def connectStep (s : PoolState) (server : String) (o : ConnectOptions) :
    ConnectResult × PoolState :=
  let normalized := (trimName server)
  match (if o.useCache then alookup s.clients normalized else none) with
  | some id => (ConnectResult.reused id, s)
  | none =>
    match alookup s.definitions normalized with
    | none => (ConnectResult.unknownServer normalized, s)
    | some _ =>
      if o.useCache then
        (ConnectResult.created s.nextId true,
          { s with clients := s.clients ++ [(normalized, s.nextId)], nextId := s.nextId + 1 })
      else
        (ConnectResult.created s.nextId false, { s with nextId := s.nextId + 1 })

/-- The `catch` branch of a cache-eligible `connect`: when the creation
promise rejects, `this.clients.delete(normalized)` runs before the error is
rethrown. -/
def connectFailureStep (s : PoolState) (server : String) : PoolState :=
  { s with clients := s.clients.filter (fun p => p.1 != (trimName server)) }

/-- Replace the binding of a key in place when present (JS `Map.set` on an
existing key keeps its position), append otherwise. -/
def mapSet {β : Type} (m : List (String × β)) (k : String) (v : β) : List (String × β) :=
  if (alookup m k).isSome then m.map (fun p => if p.1 = k then (k, v) else p)
  else m ++ [(k, v)]

/-- The method `McpRuntime.registerDefinition`: reject a duplicate name
unless `overwrite` is set; otherwise store the definition and drop any
pooled client promise under that name. -/
def registerDefinition (s : PoolState) (d : ServerDefinition) (overwrite : Bool) :
    Except String PoolState :=
  if !overwrite && (alookup s.definitions d.name).isSome then
    Except.error ("MCP server '" ++ d.name ++ "' already exists.")
  else
    Except.ok
      { s with
        definitions := mapSet s.definitions d.name d
        clients := s.clients.filter (fun p => p.1 != d.name) }

/-- Example definition used by concrete witnesses: an ad-hoc HTTP server. -/
def demoAdhocDef : ServerDefinition :=
  ⟨"adhoc-server", none, CommandSpec.http "https://example.com/mcp" none, none, none, none,
    none, none, some adhocSource⟩

/-- Example definition used by concrete witnesses: a plain HTTP server from
a local config file. -/
def demoLocalDef : ServerDefinition :=
  ⟨"x", none, CommandSpec.http "https://example.com" none, none, none, none, none, none,
    some ⟨SourceKind.localCfg, "/tmp/config.json"⟩⟩

/-- Example replacement definition with the same name as `demoLocalDef` but
a different URL, used to witness overwrite registration. -/
def demoLocalDef2 : ServerDefinition :=
  ⟨"x", none, CommandSpec.http "https://example.org/mcp" none, none, none, none, none, none,
    some ⟨SourceKind.localCfg, "/tmp/other.json"⟩⟩

/-- Outcome of one `client.connect(transport)` call inside the retry loop. -/
inductive ConnectOutcome where
  | ok
  | fail (e : ErrVal)
deriving DecidableEq, Repr

/-- Result of `connectWithAuth`: success, a thrown error, or `pending` when
the supplied outcome script is exhausted before the loop settles. -/
inductive CwaOutcome where
  | pending
  | success
  | thrown (e : ErrVal)
deriving DecidableEq, Repr

/-- Trace of a `connectWithAuth` run: its outcome together with the number
of `client.connect` calls, `session.waitForAuthorizationCode` waits and
`transport.finishAuth` invocations. -/
structure CwaResult where
  outcome : CwaOutcome
  connects : Nat
  waits : Nat
  finishes : Nat
deriving DecidableEq, Repr

/-- The method `McpRuntime.connectWithAuth` from runtime.ts, driven by a
script of connect outcomes: on a non-Unauthorized error or without a
session the error is thrown; an Unauthorized error past the attempt bound
is thrown; otherwise the loop waits for the authorization code, calls
`finishAuth` when the transport supports it (throwing the observed error
after the wait when it does not) and re-attempts the connect. -/
def connectWithAuth (hasSession finishAuthAvailable : Bool) (maxAttempts : Nat) :
    Nat → List ConnectOutcome → CwaResult
  | _, [] => ⟨CwaOutcome.pending, 0, 0, 0⟩
  | _, ConnectOutcome.ok :: _ => ⟨CwaOutcome.success, 1, 0, 0⟩
  | attempt, ConnectOutcome.fail e :: rest =>
    if !isUnauthorizedError e || !hasSession then ⟨CwaOutcome.thrown e, 1, 0, 0⟩
    else if attempt + 1 > maxAttempts then ⟨CwaOutcome.thrown e, 1, 0, 0⟩
    else if finishAuthAvailable then
      let r := connectWithAuth hasSession finishAuthAvailable maxAttempts (attempt + 1) rest
      ⟨r.outcome, r.connects + 1, r.waits + 1, r.finishes + 1⟩
    else ⟨CwaOutcome.thrown e, 1, 1, 0⟩

/-- The TS default parameter `maxAttempts = 3` applied to the optional
`maxOAuthAttempts` a caller passes through. -/
def resolveMaxOAuthAttempts (o : Option Nat) : Nat :=
  o.getD 3

/-- The guard `activeDefinition.auth === 'oauth' && options.maxOAuthAttempts
!== 0` from `createClient`, deciding whether an interactive OAuth session
is established. -/
def shouldEstablishOAuth (auth : Option AuthKind) (maxOAuthAttempts : Option Nat) : Bool :=
  decide (auth = some AuthKind.oauth) && !(decide (maxOAuthAttempts = some 0))

/-- Signals sent while escalating child-process termination. -/
inductive TermSignal where
  | sigterm
  | sigkill
deriving DecidableEq, Repr

/-- Trace of `patchedClose` from sdk-patches.ts: bounded waits performed (in
milliseconds) and signals sent, in order. -/
structure CloseTrace where
  waits : List Nat
  signals : List TermSignal
deriving DecidableEq, Repr

/-- The resolution behaviour of `waitForChildClose` (sdk-patches.ts
L72-120): the returned promise is resolved by the same `finish` callback
on the child's `exit`, `close` and `error` events and on the timeout
timer, and the function has no rejection path — it resolves whether or not
the child actually exited within the bound.  The (ignored) Boolean records
whether the child really exits within the bounded wait. -/
def waitForChildClose (_childExitsWithinWait : Bool) : Except Unit Unit :=
  Except.ok ()

/-- The `.then(() => true, () => false)` combinator applied to each wait in
`patchedClose`: true on resolution, false on rejection. -/
def promiseThenBool : Except Unit Unit → Bool
  | Except.ok _ => true
  | Except.error _ => false

/-- The escalation section of `patchedClose` (sdk-patches.ts L173-199),
structure preserved from the source: `exited` is the `.then`-converted
result of a 700 ms `waitForChildClose`; when `exited` is false, SIGTERM is
sent and a second 700 ms wait converted the same way; when still not
`exited`, SIGKILL is sent with a 500 ms wait.  The Booleans say whether
the child really exits within the soft-close wait and within the
post-SIGTERM wait; because `waitForChildClose` never rejects, `exited` is
true on exit and on timeout alike. -/
def patchedCloseRun (childExitsSoft childExitsTerm : Bool) : CloseTrace :=
  let exited1 := promiseThenBool (waitForChildClose childExitsSoft)
  if exited1 then ⟨[700], []⟩
  else
    let exited2 := promiseThenBool (waitForChildClose childExitsTerm)
    if exited2 then ⟨[700, 700], [TermSignal.sigterm]⟩
    else ⟨[700, 700, 500], [TermSignal.sigterm, TermSignal.sigkill]⟩

/-- Trace of `ensureProcessTreeTerminated` from runtime.ts: waits, signals
to the process tree, and warnings logged. -/
structure TreeTrace where
  waits : List Nat
  signals : List TermSignal
  warnings : Nat
deriving DecidableEq, Repr

/-- The function `ensureProcessTreeTerminated` from runtime.ts: return at
once when the root is dead; otherwise wait up to 300 ms, send SIGTERM to
the tree and wait up to 700 ms, send SIGKILL and wait up to 500 ms, and
log exactly one warning when the tree is still alive after the SIGKILL
wait.  The Booleans say whether the tree exits within each bounded wait. -/
def ensureProcessTreeTerminated (alive0 exit300 exit700 exit500 : Bool) : TreeTrace :=
  if !alive0 then ⟨[], [], 0⟩
  else if exit300 then ⟨[300], [], 0⟩
  else if exit700 then ⟨[300, 700], [TermSignal.sigterm], 0⟩
  else if exit500 then ⟨[300, 700, 500], [TermSignal.sigterm, TermSignal.sigkill], 0⟩
  else ⟨[300, 700, 500], [TermSignal.sigterm, TermSignal.sigkill], 1⟩

/-- The connect options computed by `McpRuntime.listTools`:
`autoAuthorize = options.autoAuthorize !== false`, then
`maxOAuthAttempts: autoAuthorize ? undefined : 0` and
`skipCache: !autoAuthorize`. -/
def listToolsConnectOptions (autoAuthorize : Option Bool) : ConnectOptions :=
  let auto : Bool := !(decide (autoAuthorize = some false))
  ⟨if auto then none else some 0, some (!auto)⟩

/-- The three disposal steps of the `finally` block in `listTools`. -/
inductive CloseAction where
  | clientClose
  | transportClose
  | sessionClose
deriving DecidableEq, Repr

/-- The `finally` block of `listTools`: when `autoAuthorize` resolved to
false, close the client, the transport and (when present) the OAuth
session, in that order; otherwise leave the pooled connection open. -/
def listToolsCleanup (autoAuthorize : Option Bool) (hasSession : Bool) : List CloseAction :=
  if !(decide (autoAuthorize = some false)) then []
  else [CloseAction.clientClose, CloseAction.transportClose] ++
    (if hasSession then [CloseAction.sessionClose] else [])

/-- A `listTools` run after the connect: the listing outcome is returned
unchanged and the cleanup actions execute in the `finally` scope; each
close is wrapped in `catch` so the per-action success map `closeOk` cannot
influence the returned value. -/
def listToolsRun (autoAuthorize : Option Bool) (hasSession : Bool)
    (listOutcome : Except String (List String)) (_closeOk : CloseAction → Bool) :
    Except String (List String) × List CloseAction :=
  (listOutcome, listToolsCleanup autoAuthorize hasSession)

/-- A raw config entry as read from a config or import file, before
normalization; `env` and `headers` values are unresolved template strings. -/
structure RawEntry where
  baseUrl : Option String
  command : Option String
  args : List String
  env : List (String × String)
  headers : List (String × String)
deriving DecidableEq, Repr

/-- The value stored in the merge accumulator of `loadServerDefinitions`:
the raw entry, the base directory for relative paths, and the origin. -/
structure MergedEntry where
  raw : RawEntry
  baseDir : String
  source : ServerSource
deriving DecidableEq, Repr

/-- One candidate import path together with the result of
`readExternalEntries` on it: `none` when the file is missing or yields no
entries, `some` with its name-to-entry pairs otherwise. -/
structure Candidate where
  path : String
  entries : Option (List (String × RawEntry))
deriving DecidableEq, Repr

/-- One import kind as `loadServerDefinitions` sees it: its ordered
candidate paths from `pathsForImport`. -/
structure KindCandidates where
  candidates : List Candidate
deriving DecidableEq, Repr

/-- POSIX `path.dirname` for paths without trailing separators. -/
def dirname (p : String) : String :=
  match (p.data.reverse).dropWhile (fun c => c ≠ '/') with
  | [] => "."
  | [_] => "/"
  | _ :: rest => String.mk rest.reverse

/-- The accumulator value built for an import entry in
`loadServerDefinitions`: raw entry, `path.dirname` of the resolved
candidate, and an `import`-kind source with the candidate path. -/
def mkImportEntry (r : RawEntry) (path : String) : MergedEntry :=
  ⟨r, dirname path, ⟨SourceKind.imported, path⟩⟩

/-- The accumulator value built for a local (primary-config) entry:
raw entry, the root directory, and a `local`-kind source with the primary
config path. -/
def mkLocalEntry (r : RawEntry) (rootDir configPath : String) : MergedEntry :=
  ⟨r, rootDir, ⟨SourceKind.localCfg, configPath⟩⟩

/-- The guarded insertion in the import loop of `loadServerDefinitions`:
`if (merged.has(name)) continue; merged.set(name, ...)`. -/
def insertIfAbsent (m : List (String × MergedEntry)) (name : String) (e : MergedEntry) :
    List (String × MergedEntry) :=
  if (alookup m name).isSome then m else m ++ [(name, e)]

/-- Fold one candidate file's entries into the accumulator, first-wins per
name. -/
def addEntries (m : List (String × MergedEntry)) (es : List (String × RawEntry))
    (path : String) : List (String × MergedEntry) :=
  es.foldl (fun acc p => insertIfAbsent acc p.1 (mkImportEntry p.2 path)) m

/-- Process one candidate path: a missing or unreadable candidate
contributes nothing, a readable one contributes its entries. -/
def addCandidate (m : List (String × MergedEntry)) (c : Candidate) :
    List (String × MergedEntry) :=
  match c.entries with
  | none => m
  | some es => addEntries m es c.path

/-- The inner candidate loop of `loadServerDefinitions` for one import
kind: every candidate is processed in order (the loop has no break). -/
def addCandidates (m : List (String × MergedEntry)) (cs : List Candidate) :
    List (String × MergedEntry) :=
  cs.foldl addCandidate m

/-- Process one import kind. -/
def addKind (m : List (String × MergedEntry)) (k : KindCandidates) :
    List (String × MergedEntry) :=
  addCandidates m k.candidates

/-- The outer import loop of `loadServerDefinitions`, starting from an
accumulator. -/
def processImportsFrom (m : List (String × MergedEntry)) (kinds : List KindCandidates) :
    List (String × MergedEntry) :=
  kinds.foldl addKind m

/-- The import phase of `loadServerDefinitions` on an empty accumulator. -/
def processImports (kinds : List KindCandidates) : List (String × MergedEntry) :=
  processImportsFrom [] kinds

/-- The local overlay loop of `loadServerDefinitions`:
`merged.set(name, {raw, baseDir: rootDir, source: {kind: 'local', path:
configPath}})` for each entry of the primary config's `mcpServers`. -/
def overlayLocals (m : List (String × MergedEntry)) (locals : List (String × RawEntry))
    (rootDir configPath : String) : List (String × MergedEntry) :=
  locals.foldl (fun acc p => mapSet acc p.1 (mkLocalEntry p.2 rootDir configPath)) m

/-- The full merge of `loadServerDefinitions`: imports first (first-wins),
then the local overlay. -/
def loadMerge (kinds : List KindCandidates) (locals : List (String × RawEntry))
    (rootDir configPath : String) : List (String × MergedEntry) :=
  overlayLocals (processImports kinds) locals rootDir configPath

/-- Modelled from the spec: `normalizeServerEntry` lives in
config-normalize.ts, which is absent from the source tree; per spec §4.3
step 6 and the §3 data model it turns each merged
`(name, raw, baseDir, source)` tuple into a definition that carries the
name and origin through unchanged and leaves `env` and header template
strings unresolved (spec §3: placeholders are never resolved during
loading).  The model therefore keeps the raw entry whole. -/
structure NormDef where
  name : String
  raw : RawEntry
  baseDir : String
  source : ServerSource
deriving DecidableEq, Repr

/-- Modelled from the spec: the normalization step, carrying every input
through (see `NormDef`). -/
def normalizeServerEntry (name : String) (raw : RawEntry) (baseDir : String)
    (source : ServerSource) : NormDef :=
  ⟨name, raw, baseDir, source⟩

/-- The whole of `loadServerDefinitions` after config and import reads:
merge, then normalize every tuple. -/
def loadServerDefinitionsModel (kinds : List KindCandidates)
    (locals : List (String × RawEntry)) (rootDir configPath : String) : List NormDef :=
  (loadMerge kinds locals rootDir configPath).map
    (fun p => normalizeServerEntry p.1 p.2.raw p.2.baseDir p.2.source)

/-- Failure kind of the placeholder resolver (spec §7: MissingEnvVar). -/
inductive ResolveErr where
  | missingEnvVar (name : String)
deriving DecidableEq, Repr

/-- The left curly brace character, written via its code point. -/
def lbraceChar : Char :=
  Char.ofNat 123

/-- The right curly brace character, written via its code point. -/
def rbraceChar : Char :=
  Char.ofNat 125

/-- Characters allowed in an environment variable name. -/
def isNameChar (c : Char) : Bool :=
  c.isAlphanum || c = '_'

/-- Split the inside of a braced placeholder at the first `:-` marker:
name part and optional default part. -/
def splitDefaultMark : List Char → (List Char × Option (List Char))
  | [] => ([], none)
  | c :: rest =>
      if c = ':' then
        match rest with
        | '-' :: rest₂ => ([], some rest₂)
        | _ =>
            let p := splitDefaultMark rest
            (c :: p.1, p.2)
      else
        let p := splitDefaultMark rest
        (c :: p.1, p.2)

/-- Modelled from the spec (§4.1): evaluate the inside of a braced
placeholder — a bare name fails with MissingEnvVar when unset, and a
`:-` default is used when the variable is unset or empty. -/
def evalPlaceholder (env : List (String × String)) (inside : List Char) :
    Except ResolveErr (List Char) :=
  match splitDefaultMark inside with
  | (nm, some dflt) =>
      match alookup env (String.mk nm) with
      | some v => if v = "" then Except.ok dflt else Except.ok v.data
      | none => Except.ok dflt
  | (nm, none) =>
      match alookup env (String.mk nm) with
      | some v => Except.ok v.data
      | none => Except.error (ResolveErr.missingEnvVar (String.mk nm))

/-- Prepend a character to the payload of a successful resolution. -/
def consE (c : Char) : Except ResolveErr (List Char) → Except ResolveErr (List Char)
  | Except.error e => Except.error e
  | Except.ok t => Except.ok (c :: t)

/-- Prepend a resolved value to the payload of a successful resolution. -/
def appendE (v : List Char) : Except ResolveErr (List Char) → Except ResolveErr (List Char)
  | Except.error e => Except.error e
  | Except.ok t => Except.ok (v ++ t)

/-- Scanner mode: top level, inside a braced placeholder (accumulating its
inside in reverse), or inside a `$env:` name (accumulating in reverse). -/
inductive RMode where
  | top
  | brace (acc : List Char)
  | envName (acc : List Char)
deriving DecidableEq, Repr

/-- Rank used for termination: leaving `envName` mode re-examines the
current character at top level without consuming input. -/
def rmodeRank : RMode → Nat
  | RMode.top => 0
  | RMode.brace _ => 0
  | RMode.envName _ => 1

/-- Does the list start with the four characters of `env:`? -/
def isEnvColon (l : List Char) : Bool :=
  match l with
  | 'e' :: 'n' :: 'v' :: ':' :: _ => true
  | _ => false

/-- Modelled from the spec (§4.1): the single-pass placeholder scanner
behind `resolveEnvPlaceholders` in env.ts, which is absent from the
source tree.  It recognizes a braced `$`-placeholder with optional `:-`
default, the `$env:NAME` form whose missing variables yield the empty
string, and the `$$` escape producing a literal dollar; every other
character is copied, and substituted values are not rescanned. -/
def resolveGo (env : List (String × String)) (m : RMode) (cs : List Char) :
    Except ResolveErr (List Char) :=
  match m, cs with
  | RMode.top, [] => Except.ok []
  | RMode.top, c :: rest =>
      if c = '$' then
        match rest with
        | [] => Except.ok ['$']
        | c₂ :: rest₂ =>
            if c₂ = '$' then consE '$' (resolveGo env RMode.top rest₂)
            else if c₂ = lbraceChar then resolveGo env (RMode.brace []) rest₂
            else if isEnvColon rest then
              resolveGo env (RMode.envName []) ((c₂ :: rest₂).drop 4)
            else consE '$' (resolveGo env RMode.top (c₂ :: rest₂))
      else consE c (resolveGo env RMode.top rest)
  | RMode.brace acc, [] => Except.ok ('$' :: lbraceChar :: acc.reverse)
  | RMode.brace acc, c :: rest =>
      if c = rbraceChar then
        match evalPlaceholder env acc.reverse with
        | Except.error e => Except.error e
        | Except.ok v => appendE v (resolveGo env RMode.top rest)
      else resolveGo env (RMode.brace (c :: acc)) rest
  | RMode.envName acc, [] =>
      Except.ok ((alookup env (String.mk acc.reverse)).getD "").data
  | RMode.envName acc, c :: rest =>
      if isNameChar c then resolveGo env (RMode.envName (c :: acc)) rest
      else appendE ((alookup env (String.mk acc.reverse)).getD "").data
        (resolveGo env RMode.top (c :: rest))
termination_by (cs.length, rmodeRank m)
decreasing_by
  all_goals simp_wf
  all_goals first
    | (apply Prod.Lex.right; simp [rmodeRank])
    | (apply Prod.Lex.left; simp_arith)


/-- Modelled from the spec (§4.1): `resolveEnvPlaceholders` from env.ts. -/
def resolveEnvPlaceholders (env : List (String × String)) (s : String) :
    Except ResolveErr String :=
  match resolveGo env RMode.top s.data with
  | Except.error e => Except.error e
  | Except.ok cs => Except.ok (String.mk cs)

/-- Modelled from the spec: the message text of a MissingEnvVar failure. -/
def renderResolveErr : ResolveErr → String
  | ResolveErr.missingEnvVar n => "Missing required environment variable: " ++ n

/-- The header loop of `materializeHeaders` (runtime.ts): resolve each
header value, wrapping a resolution failure in a message naming the header
key and the server. -/
def materializeHeadersList (env : List (String × String)) (hs : List (String × String))
    (serverName : String) : Except String (List (String × String)) :=
  match hs with
  | [] => Except.ok []
  | (k, v) :: rest =>
      match resolveEnvPlaceholders env v with
      | Except.error err =>
          Except.error ("Failed to resolve header '" ++ k ++ "' for server '" ++
            serverName ++ "': " ++ renderResolveErr err)
      | Except.ok rv =>
          match materializeHeadersList env rest serverName with
          | Except.error e => Except.error e
          | Except.ok tail => Except.ok ((k, rv) :: tail)

/-- The function `materializeHeaders` from runtime.ts. -/
def materializeHeaders (env : List (String × String))
    (headers : Option (List (String × String))) (serverName : String) :
    Except String (Option (List (String × String))) :=
  match headers with
  | none => Except.ok none
  | some hs =>
      match materializeHeadersList env hs serverName with
      | Except.error e => Except.error e
      | Except.ok r => Except.ok (some r)

/-- The opening of the HTTP branch of `createClient` (runtime.ts): headers
are materialized before any transport is constructed, so a failing
materialization yields zero connect attempts; the second component counts
connect attempts issued. -/
def httpHeaderPhase (env : List (String × String))
    (headers : Option (List (String × String))) (serverName : String) :
    Except String (Option (List (String × String))) × Nat :=
  match materializeHeaders env headers serverName with
  | Except.error e => (Except.error e, 0)
  | Except.ok h => (Except.ok h, 1)

/-- Example raw entries used in concrete counterexamples and witnesses. -/
def rawDemoA : RawEntry :=
  ⟨some "https://a.example/mcp", none, [], [], []⟩

/-- Second example raw entry, defined by a later candidate path. -/
def rawDemoB : RawEntry :=
  ⟨some "https://b.example/mcp", none, [], [], []⟩

/-- One import kind with two candidate paths that both exist and parse: the
first defines only `a`, the second only `b`. -/
def c8DemoKinds : List KindCandidates :=
  [⟨[⟨"/repo/.cursor/mcp.json", some [("a", rawDemoA)]⟩,
     ⟨"/home/u/.config/Cursor/User/mcp.json", some [("b", rawDemoB)]⟩]⟩]

theorem scanContains_or (p q : List Char → Bool) (l : List Char) :
    scanContains (fun suf => p suf || q suf) l = (scanContains p l || scanContains q l) := by
  induction l with
  | nil => rfl
  | cons c rest ih =>
      simp only [scanContains, ih]
      cases p (c :: rest) <;> cases q (c :: rest) <;>
        cases scanContains p rest <;> cases scanContains q rest <;> rfl

theorem scanContains_congr (p q : List Char → Bool) (h : ∀ l, p l = q l) (l : List Char) :
    scanContains p l = scanContains q l := by
  induction l with
  | nil => simp [scanContains, h]
  | cons c rest ih => simp [scanContains, h, ih]

theorem isPrefixOf_append (p q l : List Char) :
    (p ++ q).isPrefixOf l = (p.isPrefixOf l && q.isPrefixOf (l.drop p.length)) := by
  induction p generalizing l with
  | nil => simp [List.isPrefixOf]
  | cons a p' ih =>
      cases l with
      | nil => simp [List.isPrefixOf]
      | cons b l' =>
          simp only [List.cons_append, List.isPrefixOf_cons₂_self] at *
          simp [List.isPrefixOf, ih, List.drop, Bool.and_assoc]

theorem sepTokenAt_eq (m : List Char) :
    sepTokenAt m =
      (('_' :: "token".data).isPrefixOf m || ('-' :: "token".data).isPrefixOf m ||
        "token".data.isPrefixOf m) := by
  cases m with
  | nil => rfl
  | cons c rest =>
      have e1 : ('_' :: "token".data).isPrefixOf (c :: rest) =
          (('_' == c) && "token".data.isPrefixOf rest) := rfl
      have e2 : ('-' :: "token".data).isPrefixOf (c :: rest) =
          (('-' == c) && "token".data.isPrefixOf rest) := rfl
      have e3 : "token".data.isPrefixOf (c :: rest) =
          (('t' == c) && "oken".data.isPrefixOf rest) := rfl
      rw [e1, e2, e3]
      by_cases h1 : c = '_'
      · subst h1
        simp [sepTokenAt]
      · by_cases h2 : c = '-'
        · subst h2
          simp [sepTokenAt]
        · have b1 : ('_' == c) = false := by
            simp only [beq_eq_false_iff_ne, ne_eq]
            exact fun h => h1 h.symm
          have b2 : ('-' == c) = false := by
            simp only [beq_eq_false_iff_ne, ne_eq]
            exact fun h => h2 h.symm
          simp [sepTokenAt, h1, h2, b1, b2, e3]

theorem invTokAt_eq (l : List Char) :
    invTokAt l =
      ("invalid_token".data.isPrefixOf l || "invalid-token".data.isPrefixOf l ||
        "invalidtoken".data.isPrefixOf l) := by
  have h1 : "invalid_token".data = "invalid".data ++ ('_' :: "token".data) := by decide
  have h2 : "invalid-token".data = "invalid".data ++ ('-' :: "token".data) := by decide
  have h3 : "invalidtoken".data = "invalid".data ++ "token".data := by decide
  have hlen : ("invalid".data).length = 7 := by decide
  rw [invTokAt, h1, h2, h3, isPrefixOf_append, isPrefixOf_append, isPrefixOf_append, hlen,
    sepTokenAt_eq]
  cases "invalid".data.isPrefixOf l <;> simp [Bool.or_assoc]

theorem testAuthWords_eq_spec (msg : String) :
    testAuthWords msg =
      (containsPat "unauthorized".data (lcList msg) ||
        containsPat "invalid_token".data (lcList msg) ||
        containsPat "invalid-token".data (lcList msg) ||
        containsPat "invalidtoken".data (lcList msg) ||
        containsPat "forbidden".data (lcList msg)) := by
  unfold testAuthWords containsPat
  have step1 : scanContains authWordsAt (lcList msg) =
      scanContains (fun suf =>
        ("unauthorized".data.isPrefixOf suf ||
          ("invalid_token".data.isPrefixOf suf || "invalid-token".data.isPrefixOf suf ||
            "invalidtoken".data.isPrefixOf suf)) || "forbidden".data.isPrefixOf suf) (lcList msg) := by
    apply scanContains_congr
    intro l
    simp only [authWordsAt]
    rw [invTokAt_eq]
  rw [step1]
  rw [scanContains_or (fun suf =>
      ("unauthorized".data.isPrefixOf suf ||
        ("invalid_token".data.isPrefixOf suf || "invalid-token".data.isPrefixOf suf ||
          "invalidtoken".data.isPrefixOf suf)))
    (fun suf => "forbidden".data.isPrefixOf suf)]
  rw [scanContains_or (fun suf => "unauthorized".data.isPrefixOf suf)
    (fun suf =>
      "invalid_token".data.isPrefixOf suf || "invalid-token".data.isPrefixOf suf ||
        "invalidtoken".data.isPrefixOf suf)]
  rw [scanContains_or (fun suf => "invalid_token".data.isPrefixOf suf || "invalid-token".data.isPrefixOf suf)
    (fun suf => "invalidtoken".data.isPrefixOf suf)]
  rw [scanContains_or (fun suf => "invalid_token".data.isPrefixOf suf)
    (fun suf => "invalid-token".data.isPrefixOf suf)]
  simp [Bool.or_assoc]

/-- C1: the Unauthorized classifier is exact — `isUnauthorizedError` returns
true precisely on typed `UnauthorizedError` instances and on values whose
stringified message matches `\b(401|403)\b` or contains one of
`unauthorized`, `invalid_token`, `invalid-token`, `invalidtoken`,
`forbidden` case-insensitively, and false on every other value. -/
theorem claimC1_unauthorized_classifier_exact (e : ErrVal) :
    isUnauthorizedError e = isUnauthorizedSpec e := by
  have key : ∀ m : String,
      (if m = "" then false else test401403 m || testAuthWords m) =
        (test401403 m ||
          (containsPat "unauthorized".data (lcList m) ||
            containsPat "invalid_token".data (lcList m) ||
            containsPat "invalid-token".data (lcList m) ||
            containsPat "invalidtoken".data (lcList m) ||
            containsPat "forbidden".data (lcList m))) := by
    intro m
    by_cases hm : m = ""
    · subst hm; decide
    · rw [if_neg hm, testAuthWords_eq_spec]
  cases e with
  | typedUnauthorized m => rfl
  | errObj m => exact key m
  | strVal s => exact key s
  | jsonValue j => exact key j
  | falsyValue => exact key ""

theorem homeTokenCacheDir_ne_empty (homedir name : String) :
    homeTokenCacheDir homedir name ≠ "" := by
  intro h
  have hlen := congrArg String.length h
  simp [homeTokenCacheDir, String.length_append] at hlen
  have : ("/.mcporter/").length = 11 := by decide
  omega

/-- C2: OAuth promotion is a pure frame-preserving update guarded by the
three eligibility conditions (HTTP command, auth not already oauth, ad-hoc
local source): eligible definitions are promoted to `auth = oauth` with
their own `tokenCacheDir` kept or the non-empty default
`homedir/.mcporter/name` filled in and all other fields unchanged, and
ineligible definitions yield no promotion. -/
theorem claimC2_oauth_promotion_frame (homedir : String) (d : ServerDefinition) :
    (d.command.kindIsHttp = true ∧ d.auth ≠ some AuthKind.oauth ∧
        d.source = some adhocSource →
      maybeEnableOAuth homedir d =
        some { d with
          auth := some AuthKind.oauth
          tokenCacheDir := some (d.tokenCacheDir.getD (homeTokenCacheDir homedir d.name)) } ∧
      (d.tokenCacheDir = none →
        (d.tokenCacheDir.getD (homeTokenCacheDir homedir d.name)) ≠ "")) ∧
    (¬(d.command.kindIsHttp = true ∧ d.auth ≠ some AuthKind.oauth ∧
        d.source = some adhocSource) →
      maybeEnableOAuth homedir d = none) := by
  constructor
  · rintro ⟨hk, ha, hs⟩
    refine ⟨?_, ?_⟩
    · simp [maybeEnableOAuth, ha, hk, hs]
    · intro hnone
      simp only [hnone, Option.getD_none]
      exact homeTokenCacheDir_ne_empty homedir d.name
  · intro hvio
    unfold maybeEnableOAuth
    by_cases ha : d.auth = some AuthKind.oauth
    · simp [ha]
    · by_cases hk : d.command.kindIsHttp
      · by_cases hs : d.source = some adhocSource
        · exact absurd ⟨hk, ha, hs⟩ hvio
        · simp [ha, hk, hs]
      · simp [ha, hk]

theorem claimC2_oauth_promotion_frame_witness :
    maybeEnableOAuth "/home/user" demoAdhocDef =
      some { demoAdhocDef with
        auth := some AuthKind.oauth
        tokenCacheDir := some "/home/user/.mcporter/adhoc-server" } ∧
    maybeEnableOAuth "/home/user" demoLocalDef = none := by
  constructor
  · have h := (claimC2_oauth_promotion_frame "/home/user" demoAdhocDef).1
      ⟨by decide, by decide, by decide⟩
    rw [h.1]
    rfl
  · exact (claimC2_oauth_promotion_frame "/home/user" demoLocalDef).2 (by decide)

theorem alookup_append {β : Type} (m l : List (String × β)) (k : String)
    (h : alookup m k = none) : alookup (m ++ l) k = alookup l k := by
  induction m with
  | nil => rfl
  | cons p rest ih =>
      obtain ⟨k', v⟩ := p
      by_cases hk : k' = k
      · simp [alookup, hk] at h
      · simp only [alookup, hk, if_neg hk, List.cons_append] at h ⊢
        exact ih h

theorem alookup_filter_ne {β : Type} (m : List (String × β)) (k : String) :
    alookup (m.filter (fun p => p.1 != k)) k = none := by
  induction m with
  | nil => rfl
  | cons p rest ih =>
      obtain ⟨k', v⟩ := p
      by_cases hk : k' = k
      · simp [List.filter, hk, ih]
      · simp only [List.filter_cons]
        have : ((k', v).1 != k) = true := by simp [hk]
        simp only [this, if_pos rfl]
        simpa [alookup, hk] using ih

/-- C4: connection-pool lifecycle — a cache-eligible connect stores one
in-flight promise under the trimmed name and a second cache-eligible
connect for the same trimmed name returns that same promise unchanged;
removing the entry on creation failure makes the next connect create a
fresh promise; and a `skipCache` connect creates a fresh promise without
touching the pool. -/
theorem claimC4_pool_lifecycle (s : PoolState) (server other : String)
    (o o' oSkip : ConnectOptions) (d : ServerDefinition)
    (huse : o.useCache = true) (huse' : o'.useCache = true)
    (hskip : oSkip.skipCache = some true)
    (hmiss : alookup s.clients (trimName server) = none)
    (hdef : alookup s.definitions (trimName server) = some d)
    (htrim : (trimName other) = (trimName server)) :
    ∃ s₁ : PoolState,
      connectStep s server o = (ConnectResult.created s.nextId true, s₁) ∧
      alookup s₁.clients (trimName server) = some s.nextId ∧
      connectStep s₁ other o' = (ConnectResult.reused s.nextId, s₁) ∧
      alookup (connectFailureStep s₁ server).clients (trimName server) = none ∧
      ((connectStep (connectFailureStep s₁ server) server o).1 =
          ConnectResult.created (s.nextId + 1) true ∧ s.nextId + 1 ≠ s.nextId) ∧
      (connectStep s server oSkip =
        (ConnectResult.created s.nextId false, { s with nextId := s.nextId + 1 })) := by
  have hskipUse : oSkip.useCache = false := by
    simp [ConnectOptions.useCache, hskip]
  refine ⟨{ s with clients := s.clients ++ [((trimName server), s.nextId)], nextId := s.nextId + 1 },
    ?_, ?_, ?_, ?_, ⟨?_, by omega⟩, ?_⟩
  · simp [connectStep, huse, hmiss, hdef]
  · simp [alookup_append s.clients [((trimName server), s.nextId)] (trimName server) hmiss, alookup]
  · have hlook : alookup (s.clients ++ [((trimName server), s.nextId)]) (trimName other) =
        some s.nextId := by
      rw [htrim, alookup_append s.clients [((trimName server), s.nextId)] (trimName server) hmiss]
      simp [alookup]
    simp [connectStep, huse', hlook]
  · exact alookup_filter_ne _ (trimName server)
  · have hmiss3 : alookup (s.clients.filter (fun p => p.1 != (trimName server)))
        (trimName server) = none := alookup_filter_ne _ (trimName server)
    simp [connectStep, connectFailureStep, huse, hmiss3, hdef]
  · simp [connectStep, hskipUse, hdef]

theorem claimC4_pool_lifecycle_witness :
    ConnectOptions.useCache ⟨none, none⟩ = true ∧
    alookup ([] : List (String × Nat)) (trimName "  x ") = none ∧
    connectStep ⟨[("x", demoLocalDef)], [], 0⟩ "x" ⟨some 0, some true⟩ =
      (ConnectResult.created 0 false, ⟨[("x", demoLocalDef)], [], 1⟩) := by
  obtain ⟨s₁, h1, h2, h3, h4, h5, h6⟩ :=
    claimC4_pool_lifecycle ⟨[("x", demoLocalDef)], [], 0⟩ "  x " "x"
      ⟨none, none⟩ ⟨none, none⟩ ⟨some 0, some true⟩ demoLocalDef
      (by decide) (by decide) (by decide) (by decide) (by decide) (by decide)
  exact ⟨by decide, by decide, h6⟩

theorem alookup_mapSet_self {β : Type} (m : List (String × β)) (k : String)
    (v : β) : alookup (mapSet m k v) k = some v := by
  unfold mapSet
  by_cases hpresent : (alookup m k).isSome
  · rw [if_pos hpresent]
    induction m with
    | nil => simp [alookup] at hpresent
    | cons p rest ih =>
        obtain ⟨k', w⟩ := p
        by_cases hk : k' = k
        · subst hk
          rw [List.map_cons]
          have hcond : ((k', w).1 = k') := rfl
          rw [if_pos hcond]
          simp [alookup]
        · have hne : ((k', w).1 = k) = False := by simp [hk]
          simp only [List.map_cons, hne, if_false]
          have hrest : (alookup rest k).isSome := by
            simpa [alookup, hk] using hpresent
          simpa [alookup, hk] using ih hrest
  · rw [if_neg hpresent]
    have hnone : alookup m k = none := by
      cases hcase : alookup m k
      · rfl
      · rw [hcase] at hpresent
        simp at hpresent
    rw [alookup_append _ _ _ hnone]
    simp [alookup]

/-- C10: every successful `registerDefinition` call — with or without
`overwrite`, in particular a successful overwrite of an existing name —
removes the pooled client promise stored under the definition's name, so
the next cache-eligible connect creates a fresh connection resolved
against the newly registered definition. -/
theorem claimC10_register_clears_pool (s : PoolState) (d : ServerDefinition) (overwrite : Bool)
    (hok : overwrite = true ∨ alookup s.definitions d.name = none)
    (hname : (trimName d.name) = d.name) :
    ∃ s' : PoolState,
      registerDefinition s d overwrite = Except.ok s' ∧
      alookup s'.clients d.name = none ∧
      alookup s'.definitions d.name = some d ∧
      (∀ o : ConnectOptions, o.useCache = true →
        connectStep s' d.name o =
          (ConnectResult.created s'.nextId true,
            { s' with clients := s'.clients ++ [(d.name, s'.nextId)],
                      nextId := s'.nextId + 1 })) := by
  have hguard : (!overwrite && (alookup s.definitions d.name).isSome) = false := by
    rcases hok with h | h
    · simp [h]
    · simp [h]
  refine ⟨⟨mapSet s.definitions d.name d,
      s.clients.filter (fun p => p.1 != d.name), s.nextId⟩, ?_, ?_, ?_, ?_⟩
  · unfold registerDefinition
    rw [hguard]
    simp
  · exact alookup_filter_ne _ d.name
  · exact alookup_mapSet_self s.definitions d.name d
  · intro o huse
    have hmiss2 : alookup (s.clients.filter (fun p => p.1 != d.name)) d.name = none :=
      alookup_filter_ne _ d.name
    have hdef2 : alookup (mapSet s.definitions d.name d) d.name = some d :=
      alookup_mapSet_self s.definitions d.name d
    simp [connectStep, huse, hname, hmiss2, hdef2]

theorem claimC10_register_clears_pool_witness :
    ((true : Bool) = true ∨ alookup [("x", demoLocalDef)] "x" = none) ∧
    registerDefinition ⟨[("x", demoLocalDef)], [("x", 5)], 6⟩ demoLocalDef2 true =
      Except.ok ⟨[("x", demoLocalDef2)], [], 6⟩ ∧
    connectStep ⟨[("x", demoLocalDef2)], [], 6⟩ "x" ⟨none, none⟩ =
      (ConnectResult.created 6 true, ⟨[("x", demoLocalDef2)], [("x", 6)], 7⟩) := by
  obtain ⟨s', h1, h2, h3, h4⟩ :=
    claimC10_register_clears_pool ⟨[("x", demoLocalDef)], [("x", 5)], 6⟩ demoLocalDef2 true
      (Or.inl rfl) (by decide)
  have hs : s' = ⟨[("x", demoLocalDef2)], [], 6⟩ := by
    have hconc : registerDefinition ⟨[("x", demoLocalDef)], [("x", 5)], 6⟩ demoLocalDef2 true =
        Except.ok ⟨[("x", demoLocalDef2)], [], 6⟩ := by rfl
    rw [hconc] at h1
    exact ((Except.ok.injEq _ _).mp h1).symm
  refine ⟨Or.inl rfl, hs ▸ h1, ?_⟩
  have := h4 ⟨none, none⟩ (by decide)
  rw [hs] at this
  exact this

theorem cwa_bound (hasSession finish : Bool) (maxA : Nat) (outcomes : List ConnectOutcome) :
    ∀ attempt : Nat,
      (connectWithAuth hasSession finish maxA attempt outcomes).waits ≤ maxA - attempt ∧
      (connectWithAuth hasSession finish maxA attempt outcomes).connects ≤ (maxA - attempt) + 1 := by
  induction outcomes with
  | nil =>
      intro attempt
      simp [connectWithAuth]
  | cons head rest ih =>
      intro attempt
      cases head with
      | ok =>
          simp [connectWithAuth]
      | fail e =>
          simp only [connectWithAuth]
          cases hguard : (!isUnauthorizedError e || !hasSession) with
          | true => simp
          | false =>
              simp only [Bool.false_eq_true, if_false]
              by_cases hatt : attempt + 1 > maxA
              · rw [if_pos hatt]
                simp
              · rw [if_neg hatt]
                cases finish with
                | false =>
                    constructor
                    · show (1 : Nat) ≤ maxA - attempt
                      omega
                    · show (1 : Nat) ≤ (maxA - attempt) + 1
                      omega
                | true =>
                    simp only [if_true]
                    have hr := ih (attempt + 1)
                    constructor
                    · show (connectWithAuth hasSession true maxA (attempt + 1) rest).waits + 1 ≤
                        maxA - attempt
                      have h1 := hr.1
                      omega
                    · show (connectWithAuth hasSession true maxA (attempt + 1) rest).connects + 1 ≤
                        (maxA - attempt) + 1
                      have h2 := hr.2
                      omega

theorem cwa_exhaust (maxA : Nat) (es : List ErrVal) :
    ∀ (e : ErrVal) (attempt : Nat),
      attempt + es.length = maxA →
      (∀ x ∈ es, isUnauthorizedError x = true) →
      isUnauthorizedError e = true →
      connectWithAuth true true maxA attempt ((es ++ [e]).map ConnectOutcome.fail) =
        ⟨CwaOutcome.thrown e, es.length + 1, es.length, es.length⟩ := by
  induction es with
  | nil =>
      intro e attempt hlen hall he
      simp only [List.length_nil, Nat.add_zero] at hlen
      subst hlen
      simp [connectWithAuth, he]
  | cons x es' ih =>
      intro e attempt hlen hall he
      have hx : isUnauthorizedError x = true := hall x (by simp)
      have hatt : ¬(attempt + 1 > maxA) := by
        simp only [List.length_cons] at hlen
        omega
      have hlen' : (attempt + 1) + es'.length = maxA := by
        simp only [List.length_cons] at hlen
        omega
      have hall' : ∀ y ∈ es', isUnauthorizedError y = true := fun y hy => hall y (by simp [hy])
      have hrec := ih e (attempt + 1) hlen' hall' he
      rw [List.map_append] at hrec
      simp only [List.map_cons, List.map_nil] at hrec
      simp only [List.cons_append, List.map_cons, connectWithAuth, hx, Bool.not_true,
        Bool.or_self, Bool.false_eq_true, if_false, if_neg hatt, if_true]
      simp [hrec]

/-- C5: the OAuth retry loop in `connectWithAuth` is bounded by
`maxOAuthAttempts`, whose default is 3: within one connect attempt with an
active session every Unauthorized error leads to a wait for the
authorization code, a `finishAuth` call and a connect re-attempt at most
`maxOAuthAttempts` times; the Unauthorized error observed once the bound
is exhausted is thrown; and with the bound 0 the first Unauthorized is
thrown immediately with no wait, while the session guard
`shouldEstablishOAuth` refuses interactive OAuth outright. -/
theorem claimC5_oauth_retry_bound :
    resolveMaxOAuthAttempts none = 3 ∧
    (∀ (hasSession finish : Bool) (maxA : Nat) (outcomes : List ConnectOutcome),
      (connectWithAuth hasSession finish maxA 0 outcomes).waits ≤ maxA ∧
      (connectWithAuth hasSession finish maxA 0 outcomes).connects ≤ maxA + 1) ∧
    (∀ (maxA : Nat) (es : List ErrVal) (e : ErrVal),
      es.length = maxA →
      (∀ x ∈ es, isUnauthorizedError x = true) →
      isUnauthorizedError e = true →
      connectWithAuth true true maxA 0 ((es ++ [e]).map ConnectOutcome.fail) =
        ⟨CwaOutcome.thrown e, maxA + 1, maxA, maxA⟩) ∧
    (∀ (finish : Bool) (e : ErrVal) (rest : List ConnectOutcome),
      isUnauthorizedError e = true →
      connectWithAuth true finish 0 0 (ConnectOutcome.fail e :: rest) =
        ⟨CwaOutcome.thrown e, 1, 0, 0⟩) ∧
    (∀ auth : Option AuthKind, shouldEstablishOAuth auth (some 0) = false) := by
  refine ⟨rfl, ?_, ?_, ?_, ?_⟩
  · intro hasSession finish maxA outcomes
    have h := cwa_bound hasSession finish maxA outcomes 0
    simpa using h
  · intro maxA es e hlen hall he
    have h := cwa_exhaust maxA es e 0 (by omega) hall he
    rw [h, hlen]
  · intro finish e rest he
    simp [connectWithAuth, he]
  · intro auth
    simp [shouldEstablishOAuth]

theorem claimC5_oauth_retry_bound_witness :
    isUnauthorizedError (ErrVal.errObj "HTTP 401") = true ∧
    connectWithAuth true true 3 0
        (([ErrVal.errObj "401 a", ErrVal.errObj "401 b", ErrVal.errObj "401 c"] ++
            [ErrVal.errObj "HTTP 401"]).map ConnectOutcome.fail) =
      ⟨CwaOutcome.thrown (ErrVal.errObj "HTTP 401"), 4, 3, 3⟩ ∧
    connectWithAuth true true 0 0 [ConnectOutcome.fail (ErrVal.errObj "HTTP 401")] =
      ⟨CwaOutcome.thrown (ErrVal.errObj "HTTP 401"), 1, 0, 0⟩ := by
  refine ⟨by decide, ?_, ?_⟩
  · exact claimC5_oauth_retry_bound.2.2.1 3
      [ErrVal.errObj "401 a", ErrVal.errObj "401 b", ErrVal.errObj "401 c"]
      (ErrVal.errObj "HTTP 401") (by decide) (by decide) (by decide)
  · exact claimC5_oauth_retry_bound.2.2.2.1 true (ErrVal.errObj "HTTP 401") [] (by decide)

/-- C7: the claimed escalation in `patchedClose` is dead code —
`waitForChildClose` resolves on child exit and on timeout alike and never
rejects, so the `.then(() => true, () => false)` conversion makes `exited`
unconditionally true and `patchedClose` sends neither SIGTERM nor SIGKILL,
even for a child that survives every bounded wait (the failing input
`childExitsSoft = false, childExitsTerm = false`); the only live
escalation is `ensureProcessTreeTerminated`, whose pre-SIGTERM wait is
300 ms rather than a 700 ms soft-close step, followed by SIGTERM with a
700 ms wait and SIGKILL with a 500 ms wait and a single warning when the
tree still survives. -/
theorem claimC7_patchedClose_never_escalates :
    (∀ childExitsSoft childExitsTerm : Bool,
      patchedCloseRun childExitsSoft childExitsTerm = ⟨[700], []⟩) ∧
    patchedCloseRun false false = ⟨[700], []⟩ ∧
    (TermSignal.sigterm ∉ (patchedCloseRun false false).signals ∧
      TermSignal.sigkill ∉ (patchedCloseRun false false).signals) ∧
    ensureProcessTreeTerminated true false false false =
      ⟨[300, 700, 500], [TermSignal.sigterm, TermSignal.sigkill], 1⟩ ∧
    (∀ alive0 e3 e7 e5 : Bool,
      (ensureProcessTreeTerminated alive0 e3 e7 e5).warnings ≤ 1) := by
  decide

/-- C9: `listTools` with `autoAuthorize: false` connects with
`skipCache = true` and `maxOAuthAttempts = 0` (a cache-ineligible connect
that is never stored in the pool), returns the listing outcome unchanged
whether it succeeded or failed, and always runs the disposal sequence
client close, transport close, OAuth session close, whose individual
failures cannot influence the result; with `autoAuthorize` unset or true
the connect options are cache-eligible, the connection is pooled and no
disposal runs. -/
theorem claimC9_listTools_dispose :
    listToolsConnectOptions (some false) = ⟨some 0, some true⟩ ∧
    (listToolsConnectOptions (some false)).useCache = false ∧
    (∀ (hasSession : Bool) (out : Except String (List String)) (f f' : CloseAction → Bool),
      (listToolsRun (some false) hasSession out f).1 = out ∧
      listToolsRun (some false) hasSession out f = listToolsRun (some false) hasSession out f' ∧
      (listToolsRun (some false) hasSession out f).2 =
        [CloseAction.clientClose, CloseAction.transportClose] ++
          (if hasSession then [CloseAction.sessionClose] else [])) ∧
    (∀ a : Option Bool, a = none ∨ a = some true →
      listToolsConnectOptions a = ⟨none, some false⟩ ∧
      (listToolsConnectOptions a).useCache = true ∧
      (∀ hasSession : Bool, listToolsCleanup a hasSession = [])) ∧
    (∀ (s : PoolState) (server : String) (d : ServerDefinition),
      alookup s.clients (trimName server) = none →
      alookup s.definitions (trimName server) = some d →
      connectStep s server (listToolsConnectOptions (some false)) =
        (ConnectResult.created s.nextId false, { s with nextId := s.nextId + 1 }) ∧
      connectStep s server (listToolsConnectOptions none) =
        (ConnectResult.created s.nextId true,
          { s with clients := s.clients ++ [((trimName server), s.nextId)],
                   nextId := s.nextId + 1 })) := by
  refine ⟨rfl, rfl, ?_, ?_, ?_⟩
  · intro hasSession out f f'
    exact ⟨rfl, rfl, by simp [listToolsRun, listToolsCleanup]⟩
  · rintro a (rfl | rfl)
    · exact ⟨rfl, rfl, fun hasSession => rfl⟩
    · exact ⟨rfl, rfl, fun hasSession => rfl⟩
  · intro s server d hmiss hdef
    constructor
    · have huse : (listToolsConnectOptions (some false)).useCache = false := rfl
      simp [connectStep, huse, hdef]
    · have huse : (listToolsConnectOptions none).useCache = true := rfl
      simp [connectStep, huse, hmiss, hdef]

theorem claimC9_listTools_dispose_witness :
    ((some true : Option Bool) = none ∨ (some true : Option Bool) = some true) ∧
    listToolsConnectOptions (some true) = ⟨none, some false⟩ ∧
    connectStep ⟨[("x", demoLocalDef)], [], 0⟩ "x" (listToolsConnectOptions (some false)) =
      (ConnectResult.created 0 false, ⟨[("x", demoLocalDef)], [], 1⟩) := by
  refine ⟨Or.inr rfl, ?_, ?_⟩
  · exact (claimC9_listTools_dispose.2.2.2.1 (some true) (Or.inr rfl)).1
  · exact (claimC9_listTools_dispose.2.2.2.2 ⟨[("x", demoLocalDef)], [], 0⟩ "x" demoLocalDef
      (by decide) (by decide)).1

theorem alookup_append_left {β : Type} (m l : List (String × β)) (k : String) (v : β)
    (h : alookup m k = some v) : alookup (m ++ l) k = some v := by
  induction m with
  | nil => simp [alookup] at h
  | cons p rest ih =>
      obtain ⟨k', w⟩ := p
      by_cases hk : k' = k
      · simp only [alookup, if_pos hk] at h ⊢
        simpa [List.cons_append, alookup, hk] using h
      · simp only [alookup, if_neg hk] at h
        simpa [List.cons_append, alookup, hk] using ih h

theorem alookup_mem {β : Type} (m : List (String × β)) (k : String) (v : β)
    (h : alookup m k = some v) : (k, v) ∈ m := by
  induction m with
  | nil => simp [alookup] at h
  | cons p rest ih =>
      obtain ⟨k', w⟩ := p
      by_cases hk : k' = k
      · subst hk
        have hw : w = v := by simpa [alookup] using h
        subst hw
        exact List.mem_cons_self _ _
      · simp only [alookup, if_neg hk] at h
        exact List.mem_cons_of_mem _ (ih h)

theorem insertIfAbsent_pres (m : List (String × MergedEntry)) (k' : String) (e : MergedEntry)
    (k : String) (v : MergedEntry) (h : alookup m k = some v) :
    alookup (insertIfAbsent m k' e) k = some v := by
  unfold insertIfAbsent
  by_cases hp : (alookup m k').isSome
  · rw [if_pos hp]
    exact h
  · rw [if_neg hp]
    exact alookup_append_left m [(k', e)] k v h

theorem addEntries_pres (es : List (String × RawEntry)) (m : List (String × MergedEntry))
    (path : String) (k : String) (v : MergedEntry) (h : alookup m k = some v) :
    alookup (addEntries m es path) k = some v := by
  induction es generalizing m with
  | nil => exact h
  | cons x es' ih =>
      exact ih (insertIfAbsent m x.1 (mkImportEntry x.2 path))
        (insertIfAbsent_pres m x.1 (mkImportEntry x.2 path) k v h)

theorem addCandidate_pres (c : Candidate) (m : List (String × MergedEntry))
    (k : String) (v : MergedEntry) (h : alookup m k = some v) :
    alookup (addCandidate m c) k = some v := by
  unfold addCandidate
  cases c.entries with
  | none => exact h
  | some es => exact addEntries_pres es m c.path k v h

theorem addCandidates_pres (cs : List Candidate) (m : List (String × MergedEntry))
    (k : String) (v : MergedEntry) (h : alookup m k = some v) :
    alookup (addCandidates m cs) k = some v := by
  induction cs generalizing m with
  | nil => exact h
  | cons c cs' ih => exact ih (addCandidate m c) (addCandidate_pres c m k v h)

theorem processImportsFrom_pres (kinds : List KindCandidates)
    (m : List (String × MergedEntry)) (k : String) (v : MergedEntry)
    (h : alookup m k = some v) : alookup (processImportsFrom m kinds) k = some v := by
  induction kinds generalizing m with
  | nil => exact h
  | cons kd kinds' ih =>
      exact ih (addKind m kd) (addCandidates_pres kd.candidates m k v h)

theorem addEntries_lookup_new (es : List (String × RawEntry))
    (m : List (String × MergedEntry)) (path : String) (name : String)
    (hnone : alookup m name = none) :
    alookup (addEntries m es path) name =
      (alookup es name).map (fun r => mkImportEntry r path) := by
  induction es generalizing m with
  | nil => simpa [addEntries, alookup]
  | cons x es' ih =>
      obtain ⟨n', r'⟩ := x
      by_cases hn : n' = name
      · subst hn
        have hne : ¬(alookup m n').isSome = true := by simp [hnone]
        have hins : insertIfAbsent m n' (mkImportEntry r' path) =
            m ++ [(n', mkImportEntry r' path)] := by
          unfold insertIfAbsent
          rw [if_neg hne]
        have hlook : alookup (m ++ [(n', mkImportEntry r' path)]) n' =
            some (mkImportEntry r' path) := by
          rw [alookup_append m [(n', mkImportEntry r' path)] n' hnone]
          simp [alookup]
        show alookup (addEntries (insertIfAbsent m n' (mkImportEntry r' path)) es' path) n' = _
        rw [hins]
        rw [addEntries_pres es' _ path n' (mkImportEntry r' path) hlook]
        simp [alookup]
      · have hstill : alookup (insertIfAbsent m n' (mkImportEntry r' path)) name = none := by
          unfold insertIfAbsent
          by_cases hp : (alookup m n').isSome
          · rw [if_pos hp]
            exact hnone
          · rw [if_neg hp]
            rw [alookup_append m [(n', mkImportEntry r' path)] name hnone]
            simp [alookup, hn]
        show alookup (addEntries (insertIfAbsent m n' (mkImportEntry r' path)) es' path) name = _
        rw [ih _ hstill]
        simp [alookup, hn]

theorem alookup_map_replace_ne {β : Type} (m : List (String × β)) (k k' : String) (v : β)
    (hne : k' ≠ k) :
    alookup (m.map (fun p => if p.1 = k then (k, v) else p)) k' = alookup m k' := by
  induction m with
  | nil => rfl
  | cons p rest ih =>
      obtain ⟨k₁, w⟩ := p
      rw [List.map_cons]
      by_cases hk₁ : k₁ = k
      · subst hk₁
        have hcond : ((k₁, w).1 = k₁) := rfl
        rw [if_pos hcond]
        have h1 : ¬(k₁ = k') := fun h => hne h.symm
        simp [alookup, h1, ih]
      · have hcond : ¬((k₁, w).1 = k) := hk₁
        rw [if_neg hcond]
        by_cases hk₂ : k₁ = k'
        · simp [alookup, hk₂]
        · simp [alookup, hk₂, ih]

theorem alookup_mapSet_ne {β : Type} (m : List (String × β)) (k k' : String) (v : β)
    (hne : k' ≠ k) : alookup (mapSet m k v) k' = alookup m k' := by
  have hkk : ¬(k = k') := fun h => hne h.symm
  unfold mapSet
  by_cases hp : (alookup m k).isSome
  · rw [if_pos hp]
    exact alookup_map_replace_ne m k k' v hne
  · rw [if_neg hp]
    cases hc : alookup m k' with
    | none =>
        rw [alookup_append m [(k, v)] k' hc]
        simp [alookup, hkk]
    | some w => exact alookup_append_left m [(k, v)] k' w hc

theorem overlayLocals_notin (locals : List (String × RawEntry))
    (m : List (String × MergedEntry)) (rootDir configPath name : String)
    (hnot : ∀ r : RawEntry, (name, r) ∉ locals) :
    alookup (overlayLocals m locals rootDir configPath) name = alookup m name := by
  induction locals generalizing m with
  | nil => rfl
  | cons x locals' ih =>
      obtain ⟨n', r'⟩ := x
      have hne : n' ≠ name := by
        intro h
        subst h
        exact hnot r' (List.mem_cons_self _ _)
      have hnot' : ∀ r : RawEntry, (name, r) ∉ locals' := by
        intro r hr
        exact hnot r (List.mem_cons_of_mem _ hr)
      show alookup (overlayLocals (mapSet m n' (mkLocalEntry r' rootDir configPath))
        locals' rootDir configPath) name = alookup m name
      rw [ih _ hnot']
      exact alookup_mapSet_ne m n' name (mkLocalEntry r' rootDir configPath) (fun h => hne h.symm)

theorem overlayLocals_mem (locals : List (String × RawEntry))
    (m : List (String × MergedEntry)) (rootDir configPath name : String) (r : RawEntry)
    (hnd : (locals.map Prod.fst).Nodup) (hmem : (name, r) ∈ locals) :
    alookup (overlayLocals m locals rootDir configPath) name =
      some (mkLocalEntry r rootDir configPath) := by
  induction locals generalizing m with
  | nil => cases hmem
  | cons x locals' ih =>
      obtain ⟨n', r'⟩ := x
      rw [List.map_cons, List.nodup_cons] at hnd
      rcases List.mem_cons.mp hmem with heq | hmem'
      · injection heq with h1 h2
        subst h1
        subst h2
        have hnot : ∀ r₂ : RawEntry, (name, r₂) ∉ locals' := by
          intro r₂ hr₂
          exact hnd.1 (List.mem_map.mpr ⟨(name, r₂), hr₂, rfl⟩)
        show alookup (overlayLocals (mapSet m name (mkLocalEntry r rootDir configPath))
          locals' rootDir configPath) name = _
        rw [overlayLocals_notin locals' _ rootDir configPath name hnot]
        exact alookup_mapSet_self m name (mkLocalEntry r rootDir configPath)
      · show alookup (overlayLocals (mapSet m n' (mkLocalEntry r' rootDir configPath))
          locals' rootDir configPath) name = _
        exact ih _ hnd.2 hmem'

/-- C3: definition merging is first-wins across imports with a local
overlay — a name bound by earlier-processed imports is never replaced by a
later-processed import, and every entry of the primary config's
`mcpServers` replaces any import entry of the same name, the resulting
definition carrying a local source with the primary config's path. -/
theorem claimC3_first_wins_local_overlay :
    (∀ (kinds kinds' : List KindCandidates) (name : String) (v : MergedEntry),
      alookup (processImports kinds) name = some v →
      alookup (processImportsFrom (processImports kinds) kinds') name = some v) ∧
    (∀ (kinds : List KindCandidates) (locals : List (String × RawEntry))
        (rootDir configPath name : String) (r : RawEntry),
      (locals.map Prod.fst).Nodup →
      (name, r) ∈ locals →
      alookup (loadMerge kinds locals rootDir configPath) name =
        some (mkLocalEntry r rootDir configPath) ∧
      normalizeServerEntry name r rootDir ⟨SourceKind.localCfg, configPath⟩ ∈
        loadServerDefinitionsModel kinds locals rootDir configPath) := by
  constructor
  · intro kinds kinds' name v h
    exact processImportsFrom_pres kinds' (processImports kinds) name v h
  · intro kinds locals rootDir configPath name r hnd hmem
    have hlook : alookup (loadMerge kinds locals rootDir configPath) name =
        some (mkLocalEntry r rootDir configPath) :=
      overlayLocals_mem locals (processImports kinds) rootDir configPath name r hnd hmem
    refine ⟨hlook, ?_⟩
    have hmm := alookup_mem _ _ _ hlook
    exact List.mem_map.mpr ⟨(name, mkLocalEntry r rootDir configPath), hmm, rfl⟩

theorem claimC3_first_wins_local_overlay_witness :
    alookup (processImports c8DemoKinds) "a" = some (mkImportEntry rawDemoA "/repo/.cursor/mcp.json") ∧
    alookup (processImportsFrom (processImports c8DemoKinds) [⟨[⟨"/x.json", some [("a", rawDemoB)]⟩]⟩])
        "a" = some (mkImportEntry rawDemoA "/repo/.cursor/mcp.json") ∧
    alookup (loadMerge c8DemoKinds [("a", rawDemoB)] "/repo" "/repo/config/mcporter.json") "a" =
      some (mkLocalEntry rawDemoB "/repo" "/repo/config/mcporter.json") := by
  refine ⟨by decide, ?_, ?_⟩
  · exact claimC3_first_wins_local_overlay.1 c8DemoKinds
      [⟨[⟨"/x.json", some [("a", rawDemoB)]⟩]⟩] "a"
      (mkImportEntry rawDemoA "/repo/.cursor/mcp.json") (by decide)
  · exact (claimC3_first_wins_local_overlay.2 c8DemoKinds [("a", rawDemoB)] "/repo"
      "/repo/config/mcporter.json" "a" rawDemoB (by decide) (by decide)).1

/-- C8 counterexample: one import kind with two candidate paths that both
exist and parse; the second candidate's server `b` (absent from the first
candidate) is present in the merged result with the second candidate's
path, so subsequent candidates are not ignored. -/
theorem claimC8_counterexample :
    alookup (processImports c8DemoKinds) "a" =
      some (mkImportEntry rawDemoA "/repo/.cursor/mcp.json") ∧
    alookup (processImports c8DemoKinds) "b" =
      some (mkImportEntry rawDemoB "/home/u/.config/Cursor/User/mcp.json") := by
  decide

/-- C8 amended: the reader walks every candidate path of a kind in order;
names bound by earlier candidates are never replaced, and a candidate that
exists and parses contributes each of its names not already bound, with
that candidate's path as the import source. -/
theorem claimC8_all_candidates_merge_first_wins :
    (∀ (m : List (String × MergedEntry)) (cs : List Candidate) (name : String)
        (v : MergedEntry),
      alookup m name = some v → alookup (addCandidates m cs) name = some v) ∧
    (∀ (m : List (String × MergedEntry)) (c : Candidate) (cs : List Candidate)
        (es : List (String × RawEntry)) (name : String) (r : RawEntry),
      alookup m name = none → c.entries = some es → alookup es name = some r →
      alookup (addCandidates m (c :: cs)) name = some (mkImportEntry r c.path)) := by
  constructor
  · intro m cs name v h
    exact addCandidates_pres cs m name v h
  · intro m c cs es name r hnone hes hfind
    have hstep : alookup (addCandidate m c) name = some (mkImportEntry r c.path) := by
      unfold addCandidate
      rw [hes]
      rw [addEntries_lookup_new es m c.path name hnone, hfind]
      rfl
    exact addCandidates_pres cs (addCandidate m c) name (mkImportEntry r c.path) hstep

theorem claimC8_all_candidates_merge_first_wins_witness :
    alookup (addCandidates []
        [⟨"/repo/.cursor/mcp.json", some [("a", rawDemoA)]⟩,
         ⟨"/home/u/.config/Cursor/User/mcp.json", some [("b", rawDemoB)]⟩]) "a" =
      some (mkImportEntry rawDemoA "/repo/.cursor/mcp.json") :=
  claimC8_all_candidates_merge_first_wins.2 []
    ⟨"/repo/.cursor/mcp.json", some [("a", rawDemoA)]⟩
    [⟨"/home/u/.config/Cursor/User/mcp.json", some [("b", rawDemoB)]⟩]
    [("a", rawDemoA)] "a" rawDemoA (by decide) (by decide) (by decide)

theorem mem_insertIfAbsent (m : List (String × MergedEntry)) (k : String) (e : MergedEntry)
    (p : String × MergedEntry) (h : p ∈ insertIfAbsent m k e) : p ∈ m ∨ p = (k, e) := by
  unfold insertIfAbsent at h
  by_cases hp : (alookup m k).isSome
  · rw [if_pos hp] at h
    exact Or.inl h
  · rw [if_neg hp] at h
    rcases List.mem_append.mp h with h1 | h1
    · exact Or.inl h1
    · simp at h1
      exact Or.inr h1

theorem mem_addEntries (es : List (String × RawEntry)) (m : List (String × MergedEntry))
    (path : String) (p : String × MergedEntry) (h : p ∈ addEntries m es path) :
    p ∈ m ∨ ∃ n r, (n, r) ∈ es ∧ p = (n, mkImportEntry r path) := by
  induction es generalizing m with
  | nil => exact Or.inl h
  | cons x es' ih =>
      rcases ih (insertIfAbsent m x.1 (mkImportEntry x.2 path)) h with h1 | h1
      · rcases mem_insertIfAbsent m x.1 (mkImportEntry x.2 path) p h1 with h2 | h2
        · exact Or.inl h2
        · exact Or.inr ⟨x.1, x.2, List.mem_cons_self _ _, h2⟩
      · obtain ⟨n, r, hmem, hp⟩ := h1
        exact Or.inr ⟨n, r, List.mem_cons_of_mem _ hmem, hp⟩

theorem mem_addCandidate (c : Candidate) (m : List (String × MergedEntry))
    (p : String × MergedEntry) (h : p ∈ addCandidate m c) :
    p ∈ m ∨ ∃ es, c.entries = some es ∧ ∃ n r, (n, r) ∈ es ∧
      p = (n, mkImportEntry r c.path) := by
  unfold addCandidate at h
  cases hc : c.entries with
  | none =>
      rw [hc] at h
      exact Or.inl h
  | some es =>
      rw [hc] at h
      rcases mem_addEntries es m c.path p h with h1 | h1
      · exact Or.inl h1
      · obtain ⟨n, r, hmem, hp⟩ := h1
        exact Or.inr ⟨es, rfl, n, r, hmem, hp⟩

theorem mem_addCandidates (cs : List Candidate) (m : List (String × MergedEntry))
    (p : String × MergedEntry) (h : p ∈ addCandidates m cs) :
    p ∈ m ∨ ∃ c ∈ cs, ∃ es, c.entries = some es ∧ ∃ n r, (n, r) ∈ es ∧
      p = (n, mkImportEntry r c.path) := by
  induction cs generalizing m with
  | nil => exact Or.inl h
  | cons c cs' ih =>
      rcases ih (addCandidate m c) h with h1 | h1
      · rcases mem_addCandidate c m p h1 with h2 | h2
        · exact Or.inl h2
        · obtain ⟨es, hes, n, r, hmem, hp⟩ := h2
          exact Or.inr ⟨c, List.mem_cons_self _ _, es, hes, n, r, hmem, hp⟩
      · obtain ⟨c', hc', rest⟩ := h1
        exact Or.inr ⟨c', List.mem_cons_of_mem _ hc', rest⟩

theorem mem_processImportsFrom (kinds : List KindCandidates)
    (m : List (String × MergedEntry)) (p : String × MergedEntry)
    (h : p ∈ processImportsFrom m kinds) :
    p ∈ m ∨ ∃ k ∈ kinds, ∃ c ∈ k.candidates, ∃ es, c.entries = some es ∧
      ∃ n r, (n, r) ∈ es ∧ p = (n, mkImportEntry r c.path) := by
  induction kinds generalizing m with
  | nil => exact Or.inl h
  | cons kd kinds' ih =>
      rcases ih (addKind m kd) h with h1 | h1
      · rcases mem_addCandidates kd.candidates m p h1 with h2 | h2
        · exact Or.inl h2
        · obtain ⟨c, hc, rest⟩ := h2
          exact Or.inr ⟨kd, List.mem_cons_self _ _, c, hc, rest⟩
      · obtain ⟨k, hk, rest⟩ := h1
        exact Or.inr ⟨k, List.mem_cons_of_mem _ hk, rest⟩

theorem mem_mapSet {β : Type} (m : List (String × β)) (k : String) (v : β)
    (p : String × β) (h : p ∈ mapSet m k v) : p ∈ m ∨ p = (k, v) := by
  unfold mapSet at h
  by_cases hp : (alookup m k).isSome
  · rw [if_pos hp] at h
    rcases List.mem_map.mp h with ⟨q, hq, hfq⟩
    by_cases hqk : q.1 = k
    · rw [if_pos hqk] at hfq
      exact Or.inr hfq.symm
    · rw [if_neg hqk] at hfq
      exact Or.inl (hfq ▸ hq)
  · rw [if_neg hp] at h
    rcases List.mem_append.mp h with h1 | h1
    · exact Or.inl h1
    · simp at h1
      exact Or.inr h1

theorem mem_overlayLocals (locals : List (String × RawEntry))
    (m : List (String × MergedEntry)) (rootDir configPath : String)
    (p : String × MergedEntry) (h : p ∈ overlayLocals m locals rootDir configPath) :
    p ∈ m ∨ ∃ n r, (n, r) ∈ locals ∧ p = (n, mkLocalEntry r rootDir configPath) := by
  induction locals generalizing m with
  | nil => exact Or.inl h
  | cons x locals' ih =>
      rcases ih (mapSet m x.1 (mkLocalEntry x.2 rootDir configPath)) h with h1 | h1
      · rcases mem_mapSet m x.1 (mkLocalEntry x.2 rootDir configPath) p h1 with h2 | h2
        · exact Or.inl h2
        · exact Or.inr ⟨x.1, x.2, List.mem_cons_self _ _, h2⟩
      · obtain ⟨n, r, hmem, hp⟩ := h1
        exact Or.inr ⟨n, r, List.mem_cons_of_mem _ hmem, hp⟩

theorem resolveGo_literal (env : List (String × String)) (pre rest : List Char)
    (h : ∀ c ∈ pre, c ≠ '$') :
    resolveGo env RMode.top (pre ++ rest) = appendE pre (resolveGo env RMode.top rest) := by
  induction pre with
  | nil =>
      cases hr : resolveGo env RMode.top rest <;> simp [appendE, hr]
  | cons c pre' ih =>
      have hc : c ≠ '$' := h c (List.mem_cons_self _ _)
      have h' : ∀ x ∈ pre', x ≠ '$' := fun x hx => h x (List.mem_cons_of_mem _ hx)
      rw [List.cons_append]
      rw [show resolveGo env RMode.top (c :: (pre' ++ rest)) =
        consE c (resolveGo env RMode.top (pre' ++ rest)) from by
          rw [resolveGo.eq_def]
          simp [hc]]
      rw [ih h']
      cases hr : resolveGo env RMode.top rest <;> simp [appendE, consE]

theorem resolveGo_braceScan (env : List (String × String)) (nm : List Char) :
    ∀ (acc rest : List Char), (∀ c ∈ nm, isNameChar c = true) →
    resolveGo env (RMode.brace acc) (nm ++ rbraceChar :: rest) =
      (match evalPlaceholder env (acc.reverse ++ nm) with
       | Except.error e => Except.error e
       | Except.ok v => appendE v (resolveGo env RMode.top rest)) := by
  induction nm with
  | nil =>
      intro acc rest _
      rw [List.nil_append, resolveGo.eq_def]
      simp
  | cons c nm' ih =>
      intro acc rest h
      have hc : isNameChar c = true := h c (List.mem_cons_self _ _)
      have hcr : ¬(c = rbraceChar) := by
        intro hh
        subst hh
        rw [show isNameChar rbraceChar = false from by decide] at hc
        cases hc
      rw [List.cons_append]
      rw [show resolveGo env (RMode.brace acc) (c :: (nm' ++ rbraceChar :: rest)) =
        resolveGo env (RMode.brace (c :: acc)) (nm' ++ rbraceChar :: rest) from by
          rw [resolveGo.eq_def]
          simp [hcr]]
      rw [ih (c :: acc) rest (fun x hx => h x (List.mem_cons_of_mem _ hx))]
      have hrw : (c :: acc).reverse ++ nm' = acc.reverse ++ (c :: nm') := by simp
      rw [hrw]

theorem splitDefaultMark_name (l : List Char) (h : ∀ c ∈ l, isNameChar c = true) :
    splitDefaultMark l = (l, none) := by
  induction l with
  | nil => rfl
  | cons c rest ih =>
      have hc : isNameChar c = true := h c (List.mem_cons_self _ _)
      have hcc : ¬(c = ':') := by
        intro hh
        subst hh
        rw [show isNameChar ':' = false from by decide] at hc
        cases hc
      simp [splitDefaultMark, hcc, ih (fun x hx => h x (List.mem_cons_of_mem _ hx))]

theorem evalPlaceholder_missing (env : List (String × String)) (varName : String)
    (hname : ∀ c ∈ varName.data, isNameChar c = true)
    (hmiss : alookup env varName = none) :
    evalPlaceholder env varName.data = Except.error (ResolveErr.missingEnvVar varName) := by
  have h1 : splitDefaultMark varName.data = (varName.data, none) :=
    splitDefaultMark_name varName.data hname
  have h2 : String.mk varName.data = varName := rfl
  simp [evalPlaceholder, h1, h2, hmiss]

theorem resolve_missing_var (env : List (String × String)) (pre suf : List Char)
    (varName : String)
    (hpre : ∀ c ∈ pre, c ≠ '$')
    (hname : ∀ c ∈ varName.data, isNameChar c = true)
    (hmiss : alookup env varName = none) :
    resolveGo env RMode.top (pre ++ '$' :: lbraceChar :: (varName.data ++ rbraceChar :: suf)) =
      Except.error (ResolveErr.missingEnvVar varName) := by
  rw [resolveGo_literal env pre _ hpre]
  have hb1 : ¬(lbraceChar = '$') := by decide
  have hstep : resolveGo env RMode.top
      ('$' :: lbraceChar :: (varName.data ++ rbraceChar :: suf)) =
      resolveGo env (RMode.brace []) (varName.data ++ rbraceChar :: suf) := by
    rw [resolveGo.eq_def]
    simp [hb1]
  rw [hstep]
  rw [resolveGo_braceScan env varName.data [] suf hname]
  rw [show (([] : List Char).reverse ++ varName.data) = varName.data from by simp]
  rw [evalPlaceholder_missing env varName hname hmiss]
  simp [appendE]

/-- C6: placeholder resolution is late-bound — every definition produced by
loading carries exactly one of the input raw entries, so its `env` map and
header values still hold their unresolved template strings; resolving a
header template containing an undefaulted braced placeholder for an unset
variable fails with MissingEnvVar; and in the HTTP connect pipeline the
header materialization failure surfaces before any connect attempt is
issued. -/
theorem claimC6_late_bound_placeholders :
    (∀ (kinds : List KindCandidates) (locals : List (String × RawEntry))
        (rootDir configPath : String) (d : NormDef),
      d ∈ loadServerDefinitionsModel kinds locals rootDir configPath →
      ((d.name, d.raw) ∈ locals ∧ d.source = ⟨SourceKind.localCfg, configPath⟩) ∨
      (∃ k ∈ kinds, ∃ c ∈ k.candidates, ∃ es, c.entries = some es ∧
        (d.name, d.raw) ∈ es ∧ d.source = ⟨SourceKind.imported, c.path⟩)) ∧
    (∀ (env : List (String × String)) (pre suf : List Char) (varName : String),
      (∀ c ∈ pre, c ≠ '$') →
      (∀ c ∈ varName.data, isNameChar c = true) →
      alookup env varName = none →
      resolveEnvPlaceholders env
          (String.mk (pre ++ '$' :: lbraceChar :: (varName.data ++ rbraceChar :: suf))) =
        Except.error (ResolveErr.missingEnvVar varName)) ∧
    (∀ (env : List (String × String)) (k tmpl serverName : String) (varName : String),
      resolveEnvPlaceholders env tmpl = Except.error (ResolveErr.missingEnvVar varName) →
      materializeHeaders env (some [(k, tmpl)]) serverName =
        Except.error ("Failed to resolve header '" ++ k ++ "' for server '" ++
          serverName ++ "': " ++ renderResolveErr (ResolveErr.missingEnvVar varName)) ∧
      (httpHeaderPhase env (some [(k, tmpl)]) serverName).2 = 0) := by
  refine ⟨?_, ?_, ?_⟩
  · intro kinds locals rootDir configPath d hd
    unfold loadServerDefinitionsModel at hd
    rcases List.mem_map.mp hd with ⟨p, hp, hnorm⟩
    unfold loadMerge at hp
    rcases mem_overlayLocals locals (processImports kinds) rootDir configPath p hp with h1 | h1
    · unfold processImports at h1
      rcases mem_processImportsFrom kinds [] p h1 with h2 | h2
      · cases h2
      · obtain ⟨k, hk, c, hc, es, hes, n, r, hmem, hpeq⟩ := h2
        subst hpeq
        subst hnorm
        exact Or.inr ⟨k, hk, c, hc, es, hes, hmem, rfl⟩
    · obtain ⟨n, r, hmem, hpeq⟩ := h1
      subst hpeq
      subst hnorm
      exact Or.inl ⟨hmem, rfl⟩
  · intro env pre suf varName hpre hname hmiss
    unfold resolveEnvPlaceholders
    rw [show (String.mk (pre ++ '$' :: lbraceChar :: (varName.data ++ rbraceChar :: suf))).data =
      pre ++ '$' :: lbraceChar :: (varName.data ++ rbraceChar :: suf) from rfl]
    rw [resolve_missing_var env pre suf varName hpre hname hmiss]
  · intro env k tmpl serverName varName h
    constructor
    · simp [materializeHeaders, materializeHeadersList, h]
    · simp [httpHeaderPhase, materializeHeaders, materializeHeadersList, h]

theorem claimC6_late_bound_placeholders_witness :
    normalizeServerEntry "a" rawDemoB "/repo" ⟨SourceKind.localCfg, "/repo/config/mcporter.json"⟩ ∈
      loadServerDefinitionsModel c8DemoKinds [("a", rawDemoB)] "/repo"
        "/repo/config/mcporter.json" ∧
    resolveEnvPlaceholders []
        (String.mk ("Bearer ".data ++ '$' :: lbraceChar ::
          ("LINEAR_API_KEY".data ++ rbraceChar :: []))) =
      Except.error (ResolveErr.missingEnvVar "LINEAR_API_KEY") ∧
    materializeHeaders []
        (some [("Authorization",
          String.mk ("Bearer ".data ++ '$' :: lbraceChar ::
            ("LINEAR_API_KEY".data ++ rbraceChar :: [])))]) "linear" =
      Except.error ("Failed to resolve header 'Authorization' for server 'linear': " ++
        renderResolveErr (ResolveErr.missingEnvVar "LINEAR_API_KEY")) ∧
    (httpHeaderPhase []
        (some [("Authorization",
          String.mk ("Bearer ".data ++ '$' :: lbraceChar ::
            ("LINEAR_API_KEY".data ++ rbraceChar :: [])))]) "linear").2 = 0 := by
  have h2 := claimC6_late_bound_placeholders.2.1 [] "Bearer ".data []
    "LINEAR_API_KEY" (by decide) (by decide) rfl
  have h3 := claimC6_late_bound_placeholders.2.2 [] "Authorization"
    (String.mk ("Bearer ".data ++ '$' :: lbraceChar ::
      ("LINEAR_API_KEY".data ++ rbraceChar :: []))) "linear" "LINEAR_API_KEY" h2
  have h1 := claimC6_late_bound_placeholders.1 c8DemoKinds [("a", rawDemoB)] "/repo"
    "/repo/config/mcporter.json"
  refine ⟨?_, h2, h3.1, h3.2⟩
  decide

end Mcporter
